import Mathlib

/-!
Verification of the pole-of-inaccessibility tool (`src/calculations/poles.py`).

The tool's `execute` method runs a branch-and-bound search over square cells.
We embed the algorithm shallowly, generically over a linear ordered field `α`:
the source's `math.sqrt(2)` becomes an explicit parameter `s` (theorems that
need its value carry the hypotheses `s * s = 2` and `0 ≤ s`, and witnesses
instantiate `s := Real.sqrt 2`), the host geometry object (`polygon_geom`,
an arcpy geometry) becomes a record of exactly the accessors the source
uses (extent, area, centroid, `distanceTo`), and the wall-clock readings
taken by `time.time()` at each queue insertion become an ambient stream
`ts : ℕ → α` sampled at a per-run insertion counter.  The two unbounded
`while` loops of the source (grid seeding and the main search loop) are
embedded fuel-indexed; `none` models a run that does not finish within the
given fuel, and the termination theorem produces sufficient fuel explicitly.
-/

variable {α : Type} [LinearOrderedField α]

/-- A square candidate region, as built by the source's `Cell.__init__`:
center `(x, y)`, half-size `h`, distance `d` at the center, and
`max = d + h * sqrt2`. -/
structure Cell (α : Type) where
  x : α
  y : α
  h : α
  d : α
  max : α
  deriving Repr, DecidableEq

/-- `Cell(x, y, h, polygon_geom)` from the source: `d` is the oracle value at
the center and `max = d + h * s` where `s` stands for `math.sqrt(2)`. -/
def Cell.make (dist : α → α → α) (s x y h : α) : Cell α :=
  { x := x, y := y, h := h, d := dist x y, max := dist x y + h * s }

/-- One entry of the priority queue, mirroring the tuple
`(-c.max, time.time(), c)` the source pushes: `k1` is the negated upper
bound, `k2` the clock reading taken at insertion. -/
structure Entry (α : Type) where
  k1 : α
  k2 : α
  cell : Cell α
  deriving Repr, DecidableEq

/-- Lexicographic comparison of the first two tuple components, which is the
order `queue.PriorityQueue` pops by (smallest tuple first).  When both
components tie, CPython would go on to compare the `Cell` objects and raise
`TypeError`; the model completes this case by earliest list position. -/
def keyLe (e f : Entry α) : Prop :=
  e.k1 < f.k1 ∨ (e.k1 = f.k1 ∧ e.k2 ≤ f.k2)

instance (e f : Entry α) : Decidable (keyLe e f) :=
  inferInstanceAs (Decidable (_ ∨ _))

/-- Pop the least entry by `(k1, k2)` (i.e. the greatest `max`, clock reading
as tie-break), earliest inserted on an exact tie, returning it together with
the remaining entries. -/
def popMin : List (Entry α) → Option (Entry α × List (Entry α))
  | [] => none
  | e :: es =>
    match popMin es with
    | none => some (e, es)
    | some (m, rest) => if keyLe e m then some (e, es) else some (m, e :: rest)

/-- The loop state of `execute`: the priority queue's contents in insertion
order, the best cell so far, and the number of queue insertions performed so
far (each insertion samples the clock stream once, as `time.time()` does). -/
structure SearchState (α : Type) where
  queue : List (Entry α)
  best : Cell α
  clock : ℕ
  deriving Repr, DecidableEq

/-- One iteration of the source's `while not cell_queue.empty()` loop: pop the
top entry, replace `best_cell` when the popped cell's `d` is strictly
greater, then either prune (`continue`) when `cell.max - best_cell.d <=
tolerance`, or push the four child cells at offsets
`(-h, -h), (h, -h), (-h, h), (h, h)` with `h = cell.h / 2`. -/
def step (s : α) (dist : α → α → α) (tol : α) (ts : ℕ → α)
    (st : SearchState α) : SearchState α :=
  match popMin st.queue with
  | none => st
  | some (e, rest) =>
    let cell := e.cell
    let best1 := if st.best.d < cell.d then cell else st.best
    if cell.max - best1.d ≤ tol then
      { queue := rest, best := best1, clock := st.clock }
    else
      let h2 := cell.h / 2
      let c1 := Cell.make dist s (cell.x - h2) (cell.y - h2) h2
      let c2 := Cell.make dist s (cell.x + h2) (cell.y - h2) h2
      let c3 := Cell.make dist s (cell.x - h2) (cell.y + h2) h2
      let c4 := Cell.make dist s (cell.x + h2) (cell.y + h2) h2
      { queue := rest ++
          [⟨-c1.max, ts st.clock, c1⟩, ⟨-c2.max, ts (st.clock + 1), c2⟩,
           ⟨-c3.max, ts (st.clock + 2), c3⟩, ⟨-c4.max, ts (st.clock + 3), c4⟩],
        best := best1,
        clock := st.clock + 4 }

/-- The main loop, fuel-indexed: run `step` while the queue is nonempty.
`none` means the fuel ran out before the queue emptied. -/
def loopFuel (s : α) (dist : α → α → α) (tol : α) (ts : ℕ → α) :
    ℕ → SearchState α → Option (SearchState α)
  | 0, st => match st.queue with
    | [] => some st
    | _ :: _ => none
  | n + 1, st => match st.queue with
    | [] => some st
    | _ :: _ => loopFuel s dist tol ts n (step s dist tol ts st)

/-- The host geometry object, by exactly the accessors the source reads from
`polygon_geom`: its extent (`XMin` .. `YMax`), `area`, `centroid`, and the
distance query `PointGeometry(x, y).distanceTo(polygon_geom)`. -/
structure Polygon (α : Type) where
  xmin : α
  xmax : α
  ymin : α
  ymax : α
  area : α
  cx : α
  cy : α
  dist : α → α → α

/-- The source's seeding loops `while v < limit: ...; v += stp`, fuel-indexed:
the list of loop-variable values visited, or `none` if the fuel runs out
while the loop condition still holds. -/
def seedVals : ℕ → α → α → α → Option (List α)
  | 0, v, limit, _ => if v < limit then none else some []
  | n + 1, v, limit, stp =>
    if v < limit then (seedVals n (v + stp) limit stp).map (fun l => v :: l)
    else some []

/-- The body of `execute` after the tolerance default has been applied and the
first feature's geometry extracted: bounding box, degenerate shortcut to the
centroid, grid seeding, best-cell seeding from centroid and bounding-box
center, then the main loop.  Returns the pole point `(x, y)`. -/
def executeCore (s : α) (pg : Polygon α) (tol : α) (ts : ℕ → α) (fuel : ℕ) :
    Option (α × α) :=
  let width := pg.xmax - pg.xmin
  let height := pg.ymax - pg.ymin
  let cellSize := min width height
  let h := cellSize / 2
  let maxDim := max width height
  if cellSize = 0 ∨ pg.area < maxDim * tol then
    some (pg.cx, pg.cy)
  else
    match seedVals fuel pg.xmin pg.xmax cellSize,
          seedVals fuel pg.ymin pg.ymax cellSize with
    | some xs, some ys =>
      let cells := xs.flatMap (fun x => ys.map
        (fun y => Cell.make pg.dist s (x + h) (y + h) h))
      let entries := cells.enum.map
        (fun ic => (⟨-ic.2.max, ts ic.1, ic.2⟩ : Entry α))
      let centroidCell := Cell.make pg.dist s pg.cx pg.cy 0
      let bboxCell :=
        Cell.make pg.dist s (pg.xmin + width / 2) (pg.ymin + height / 2) 0
      let best0 := if centroidCell.d < bboxCell.d then bboxCell else centroidCell
      match loopFuel s pg.dist tol ts fuel
          { queue := entries, best := best0, clock := cells.length } with
      | some st => some (st.best.x, st.best.y)
      | none => none
    | _, _ => none

/-- The source's tolerance default
`tolerance = parameters[2].value if parameters[2].value else 0.001`:
an absent value (`None`) and the falsy value `0` both become `0.001`;
any other value, including a negative one, is used as supplied. -/
def effectiveTol (tolOpt : Option α) : α :=
  match tolOpt with
  | none => 1 / 1000
  | some t => if t = 0 then 1 / 1000 else t

/-- The tool's `execute`: take the first feature yielded by the search cursor
(the loop body runs once and `break`s; with no features the geometry variable
is never bound and the run fails, modelled by `none`), apply the tolerance
default, and run the search. -/
def execute (s : α) (features : List (Polygon α)) (tolOpt : Option α)
    (ts : ℕ → α) (fuel : ℕ) : Option (α × α) :=
  match features with
  | [] => none
  | pg :: _ => executeCore s pg (effectiveTol tolOpt) ts fuel

/-- Modelled from the spec: the source computes `d` through
`arcpy.PointGeometry(...).distanceTo(polygon_geom)`, whose implementation is
not part of this repository, so the Distance Oracle of spec section 4.2 is
modelled from the spec's words.  This is the squared distance from a point to
the segment `a`-`b` (the closest point is the projection onto the segment,
clamped to its endpoints); distances themselves are characterised through
their squares to stay inside the field `α`. -/
def segDistSq (p a b : α × α) : α :=
  let dx := b.1 - a.1
  let dy := b.2 - a.2
  let len := dx * dx + dy * dy
  if len = 0 then (p.1 - a.1) ^ 2 + (p.2 - a.2) ^ 2
  else
    let t := ((p.1 - a.1) * dx + (p.2 - a.2) * dy) / len
    let tc := if t ≤ 0 then 0 else if 1 ≤ t then 1 else t
    (p.1 - (a.1 + tc * dx)) ^ 2 + (p.2 - (a.2 + tc * dy)) ^ 2

/-- Modelled from the spec: the edges of one ring, the ring being "closed
implicitly" (each point is joined to the next, the last back to the first). -/
def edgesOf (ring : List (α × α)) : List ((α × α) × (α × α)) :=
  ring.zip (ring.rotate 1)

/-- Modelled from the spec: one ray-casting crossing test for the horizontal
ray from `p`, against the edge `a`-`b`. -/
def crosses (p a b : α × α) : Bool :=
  (decide (p.2 < a.2) != decide (p.2 < b.2)) &&
    decide (p.1 < (b.1 - a.1) * (p.2 - a.2) / (b.2 - a.2) + a.1)

/-- Modelled from the spec: even-odd ray-casting membership in a single ring. -/
def inRing (ring : List (α × α)) (p : α × α) : Bool :=
  ((edgesOf ring).countP fun e => crosses p e.1 e.2) % 2 == 1

/-- Modelled from the spec: a point counts as inside when it is inside the
outer ring (ring 0) and outside every hole ring. -/
def insidePoly (rings : List (List (α × α))) (p : α × α) : Bool :=
  match rings with
  | [] => false
  | outer :: holes => inRing outer p && holes.all fun hole => !inRing hole p

/-- Modelled from the spec: the squared minimum Euclidean distance from `p` to
every edge of every ring (`0` for a polygon with no edges). -/
def minDistSq (rings : List (List (α × α))) (p : α × α) : α :=
  match (rings.flatMap edgesOf).map (fun e => segDistSq p e.1 e.2) with
  | [] => 0
  | d :: ds => ds.foldl (fun a b => if a ≤ b then a else b) d

/-- Modelled from the spec: `r` is the signed minimum distance from `p` to the
polygon boundary — its square is the minimum squared edge distance, and it is
nonnegative when `p` is inside the polygon and outside all holes, nonpositive
otherwise. -/
def IsSignedDistance (rings : List (List (α × α))) (p : α × α) (r : α) : Prop :=
  r * r = minDistSq rings p ∧
    (insidePoly rings p = true → 0 ≤ r) ∧
    (insidePoly rings p = false → r ≤ 0)

instance (rings : List (List (α × α))) (p : α × α) (r : α) :
    Decidable (IsSignedDistance rings p r) := by
  unfold IsSignedDistance
  infer_instance

/-- Nodes-per-subtree bound used by the termination argument: a cell whose
half-size forces pruning within `k` further subdivision levels accounts for at
most `bnd k` loop iterations. -/
def bnd : ℕ → ℕ
  | 0 => 1
  | k + 1 => 1 + 4 * bnd k

/-- A degenerate polygon (zero-width bounding box) with rational data, used to
exercise the centroid shortcut. -/
def flatPoly : Polygon ℚ :=
  { xmin := 3, xmax := 3, ymin := 0, ymax := 7, area := 0,
    cx := 3, cy := 5, dist := fun _ _ => 0 }

/-- The outer ring of an axis-aligned `4 × 4` square, with rational vertices. -/
def sqRing : List (List (ℚ × ℚ)) := [[(0, 0), (4, 0), (4, 4), (0, 4)]]

theorem keyLe_refl (e : Entry α) : keyLe e e := Or.inr ⟨rfl, le_refl _⟩

theorem keyLe_total (e f : Entry α) : keyLe e f ∨ keyLe f e := by
  rcases lt_trichotomy e.k1 f.k1 with h | h | h
  · exact Or.inl (Or.inl h)
  · rcases le_total e.k2 f.k2 with h2 | h2
    · exact Or.inl (Or.inr ⟨h, h2⟩)
    · exact Or.inr (Or.inr ⟨h.symm, h2⟩)
  · exact Or.inr (Or.inl h)

theorem keyLe_trans {e f g : Entry α} (hef : keyLe e f) (hfg : keyLe f g) :
    keyLe e g := by
  rcases hef with h1 | ⟨h1, h1'⟩ <;> rcases hfg with h2 | ⟨h2, h2'⟩
  · exact Or.inl (h1.trans h2)
  · exact Or.inl (h2 ▸ h1)
  · exact Or.inl (h1 ▸ h2)
  · exact Or.inr ⟨h1.trans h2, h1'.trans h2'⟩

theorem popMin_eq_none_iff (l : List (Entry α)) : popMin l = none ↔ l = [] := by
  cases l with
  | nil => simp [popMin]
  | cons e es =>
    rcases h : popMin es with - | ⟨m, rest⟩ <;> simp [popMin, h]
    split <;> simp

/-- The entries left behind by a pop, together with the popped entry, are a
permutation of the original queue. -/
theorem popMin_perm {l : List (Entry α)} {e : Entry α} {rest : List (Entry α)}
    (h : popMin l = some (e, rest)) : (e :: rest).Perm l := by
  induction l generalizing e rest with
  | nil => simp [popMin] at h
  | cons f fs ih =>
    rcases hf : popMin fs with - | ⟨m, r⟩
    · simp only [popMin, hf, Option.some.injEq, Prod.mk.injEq] at h
      obtain ⟨rfl, rfl⟩ := h
      exact List.Perm.refl _
    · simp only [popMin, hf] at h
      split at h
      · simp only [Option.some.injEq, Prod.mk.injEq] at h
        obtain ⟨rfl, rfl⟩ := h
        exact List.Perm.refl _
      · simp only [Option.some.injEq, Prod.mk.injEq] at h
        obtain ⟨rfl, rfl⟩ := h
        exact (List.Perm.swap f m r).trans ((ih hf).cons f)

/-- The popped entry has the least `(k1, k2)` key of the whole queue: the
greatest upper bound, ties broken towards the smaller clock reading. -/
theorem popMin_le_all {l : List (Entry α)} {e : Entry α} {rest : List (Entry α)}
    (h : popMin l = some (e, rest)) : ∀ f ∈ l, keyLe e f := by
  induction l generalizing e rest with
  | nil => simp [popMin] at h
  | cons g gs ih =>
    rcases hg : popMin gs with - | ⟨m, r⟩
    · have hgs : gs = [] := (popMin_eq_none_iff gs).mp hg
      simp only [popMin, hg, Option.some.injEq, Prod.mk.injEq] at h
      obtain ⟨rfl, rfl⟩ := h
      subst hgs
      intro f hf
      rcases List.mem_singleton.mp hf with rfl
      exact keyLe_refl _
    · simp only [popMin, hg] at h
      by_cases hgm : keyLe g m
      · rw [if_pos hgm] at h
        simp only [Option.some.injEq, Prod.mk.injEq] at h
        obtain ⟨rfl, rfl⟩ := h
        intro f hf
        rcases List.mem_cons.mp hf with rfl | hf
        · exact keyLe_refl _
        · exact keyLe_trans hgm (ih hg _ hf)
      · rw [if_neg hgm] at h
        simp only [Option.some.injEq, Prod.mk.injEq] at h
        obtain ⟨rfl, rfl⟩ := h
        intro f hf
        rcases List.mem_cons.mp hf with rfl | hf
        · rcases keyLe_total f m with hfe | hef
          · exact absurd hfe hgm
          · exact hef
        · exact ih hg _ hf

theorem best1_le {b c : Cell α} : b.d ≤ (if b.d < c.d then c else b).d := by
  split
  · exact le_of_lt ‹_›
  · exact le_rfl

theorem best1_ge_cell {b c : Cell α} : c.d ≤ (if b.d < c.d then c else b).d := by
  split
  · exact le_rfl
  · exact not_lt.mp ‹_›

/-- The best cell after one loop iteration is the popped cell when its `d`
strictly improves on the current best, and the current best otherwise. -/
theorem step_best_eq {st : SearchState α} {e : Entry α} {rest : List (Entry α)}
    (s : α) (dist : α → α → α) (tol : α) (ts : ℕ → α)
    (h : popMin st.queue = some (e, rest)) :
    (step s dist tol ts st).best =
      if st.best.d < e.cell.d then e.cell else st.best := by
  unfold step
  simp only [h]
  split <;> split <;> rfl

theorem step_best_le (s : α) (dist : α → α → α) (tol : α) (ts : ℕ → α)
    (st : SearchState α) : st.best.d ≤ (step s dist tol ts st).best.d := by
  rcases h : popMin st.queue with - | ⟨e, rest⟩
  · unfold step
    simp only [h]
    exact le_rfl
  · rw [step_best_eq s dist tol ts h]
    exact best1_le

/-- Claim C9: the computation uses only the first feature yielded by the input
cursor — for any input `pg :: rest` the result equals the result for the
single-feature input `[pg]`, so the remaining features have no effect. -/
theorem only_first_feature_used (s : α) (pg : Polygon α) (rest : List (Polygon α))
    (tolOpt : Option α) (ts : ℕ → α) (fuel : ℕ) :
    execute s (pg :: rest) tolOpt ts fuel = execute s [pg] tolOpt ts fuel := rfl

/-- Claim C5: whenever the bounding box has `min(width, height) = 0` or the
polygon's area is below `max(width, height) * tolerance`, the computation
returns the centroid directly; it does so for every fuel value, including
fuel `0`, because neither the seeding loops nor the search loop run. -/
theorem degenerate_input_returns_centroid (s : α) (pg : Polygon α) (tol : α)
    (ts : ℕ → α) (fuel : ℕ)
    (hdeg : min (pg.xmax - pg.xmin) (pg.ymax - pg.ymin) = 0 ∨
      pg.area < max (pg.xmax - pg.xmin) (pg.ymax - pg.ymin) * tol) :
    executeCore s pg tol ts fuel = some (pg.cx, pg.cy) := by
  simp only [executeCore]
  rw [if_pos hdeg]

theorem degenerate_input_returns_centroid_witness :
    (min (flatPoly.xmax - flatPoly.xmin) (flatPoly.ymax - flatPoly.ymin) = 0 ∨
      flatPoly.area <
        max (flatPoly.xmax - flatPoly.xmin) (flatPoly.ymax - flatPoly.ymin) *
          (1 / 1000)) ∧
    executeCore 0 flatPoly (1 / 1000) (fun n => (n : ℚ)) 0 = some (3, 5) := by
  refine ⟨Or.inl (by norm_num [flatPoly]), ?_⟩
  have h := degenerate_input_returns_centroid 0 flatPoly (1 / 1000)
    (fun n => (n : ℚ)) 0 (Or.inl (by norm_num [flatPoly]))
  simpa [flatPoly] using h

/-- Claim C10: an absent tolerance (`None`) and the falsy value `0` are both
silently replaced by the default `0.001`, so a run with tolerance `0` is
identical to a run with tolerance `0.001`; a strictly negative tolerance is
used exactly as supplied. -/
theorem falsy_tolerance_defaulted (s : α) (features : List (Polygon α))
    (ts : ℕ → α) (fuel : ℕ) (t : α) :
    effectiveTol (none : Option α) = 1 / 1000 ∧
    effectiveTol (some (0 : α)) = 1 / 1000 ∧
    (t ≠ 0 → effectiveTol (some t) = t) ∧
    execute s features (some 0) ts fuel = execute s features (some (1 / 1000)) ts fuel ∧
    execute s features none ts fuel = execute s features (some (1 / 1000)) ts fuel ∧
    (t < 0 → ∀ pg : Polygon α, ∀ rest,
      execute s (pg :: rest) (some t) ts fuel = executeCore s pg t ts fuel) := by
  have h1000 : (1 / 1000 : α) ≠ 0 := by norm_num
  have hz : effectiveTol (some (0 : α)) = 1 / 1000 := by
    simp [effectiveTol]
  have hd : effectiveTol (some (1 / 1000 : α)) = 1 / 1000 := by
    simp [effectiveTol, h1000]
  refine ⟨rfl, hz, fun ht => by simp [effectiveTol, ht], ?_, ?_, ?_⟩
  · cases features with
    | nil => rfl
    | cons pg rest => simp only [execute, hz, hd]
  · cases features with
    | nil => rfl
    | cons pg rest =>
      have hn : effectiveTol (none : Option α) = 1 / 1000 := rfl
      simp only [execute, hn, hd]
  · intro ht pg rest
    have : effectiveTol (some t) = t := by simp [effectiveTol, ne_of_lt ht]
    simp only [execute, this]

theorem falsy_tolerance_defaulted_witness :
    ((-1 : ℚ) ≠ 0 ∧ (-1 : ℚ) < 0) ∧
    effectiveTol (some (-1 : ℚ)) = -1 ∧
    execute 0 [flatPoly] (some (-1 : ℚ)) (fun n => (n : ℚ)) 0 =
      executeCore 0 flatPoly (-1) (fun n => (n : ℚ)) 0 ∧
    execute 0 [flatPoly] (some (0 : ℚ)) (fun n => (n : ℚ)) 0 =
      execute 0 [flatPoly] (some (1 / 1000 : ℚ)) (fun n => (n : ℚ)) 0 := by
  have h := falsy_tolerance_defaulted 0 [flatPoly] (fun n => (n : ℚ)) 0 (-1 : ℚ)
  exact ⟨⟨by norm_num, by norm_num⟩, h.2.2.1 (by norm_num),
    h.2.2.2.2.2 (by norm_num) flatPoly [], h.2.2.2.1⟩

/-- Claim C4 (amended): the code performs no tolerance validation at all.  A
run supplied with tolerance `t ≤ 0` does not fail with an `InvalidTolerance`
error: when `t = 0` the falsy-default substitution silently replaces it by
`0.001` and the run proceeds normally, and when `t < 0` the run proceeds with
the negative tolerance as supplied. -/
theorem nonpositive_tolerance_not_rejected (s t : α) (_ht : t ≤ 0)
    (features : List (Polygon α)) (ts : ℕ → α) (fuel : ℕ) :
    execute s features (some t) ts fuel =
      match features with
      | [] => none
      | pg :: _ => executeCore s pg (if t = 0 then 1 / 1000 else t) ts fuel := by
  cases features <;> rfl

theorem nonpositive_tolerance_not_rejected_witness :
    (-1 : ℚ) ≤ 0 ∧
    execute 0 [flatPoly] (some (-1 : ℚ)) (fun n => (n : ℚ)) 0 =
      executeCore 0 flatPoly (if (-1 : ℚ) = 0 then 1 / 1000 else -1)
        (fun n => (n : ℚ)) 0 :=
  ⟨by norm_num,
    nonpositive_tolerance_not_rejected 0 (-1) (by norm_num) [flatPoly]
      (fun n => (n : ℚ)) 0⟩

/-- Claim C4 (counterexample): with tolerance `0` — and likewise `-1` — the
computation does not fail: it completes and returns a point (here the
centroid of a degenerate polygon, with zero loop fuel, so no error is raised
before, in, or after the main loop). -/
theorem zero_tolerance_returns_point_not_error :
    execute (Real.sqrt 2)
      [{ xmin := 5, xmax := 5, ymin := 0, ymax := 2, area := 0, cx := 5, cy := 1,
         dist := fun _ _ => 0 }] (some (0 : ℝ)) (fun n => (n : ℝ)) 0 =
      some (5, 1) ∧
    execute (Real.sqrt 2)
      [{ xmin := 5, xmax := 5, ymin := 0, ymax := 2, area := 0, cx := 5, cy := 1,
         dist := fun _ _ => 0 }] (some (-1 : ℝ)) (fun n => (n : ℝ)) 0 =
      some (5, 1) := by
  constructor <;> norm_num [execute, executeCore, effectiveTol]

/-- Claim C6: for every cell built by `Cell.__init__` with half-size `h ≥ 0`,
the stored upper bound equals `d + h * sqrt2`, dominates `d`, and equals `d`
exactly when `h = 0` (`s` stands for `math.sqrt(2)`: `s * s = 2`, `0 ≤ s`). -/
theorem cell_upper_bound_dominates_d (dist : α → α → α) (s x y h : α)
    (hs2 : s * s = 2) (hs0 : 0 ≤ s) (hh : 0 ≤ h) :
    (Cell.make dist s x y h).max = (Cell.make dist s x y h).d + h * s ∧
    (Cell.make dist s x y h).d ≤ (Cell.make dist s x y h).max ∧
    ((Cell.make dist s x y h).max = (Cell.make dist s x y h).d ↔ h = 0) := by
  have hs : 0 < s := by
    rcases hs0.lt_or_eq with h' | h'
    · exact h'
    · exfalso
      rw [← h'] at hs2
      norm_num at hs2
  refine ⟨rfl, ?_, ?_⟩
  · simp only [Cell.make]
    have : 0 ≤ h * s := mul_nonneg hh hs0
    linarith
  · simp only [Cell.make]
    constructor
    · intro hEq
      have hms : h * s = 0 := by linarith
      rcases mul_eq_zero.mp hms with h0 | h0
      · exact h0
      · exact absurd h0 (ne_of_gt hs)
    · intro h0
      rw [h0]
      ring

theorem cell_upper_bound_dominates_d_witness :
    (Real.sqrt 2 * Real.sqrt 2 = 2 ∧ 0 ≤ Real.sqrt 2 ∧ (0 : ℝ) ≤ 1) ∧
    (Cell.make (fun _ _ => (0 : ℝ)) (Real.sqrt 2) 0 0 1).d ≤
      (Cell.make (fun _ _ => (0 : ℝ)) (Real.sqrt 2) 0 0 1).max := by
  have h2 : Real.sqrt 2 * Real.sqrt 2 = 2 := Real.mul_self_sqrt (by norm_num)
  exact ⟨⟨h2, Real.sqrt_nonneg 2, by norm_num⟩,
    (cell_upper_bound_dominates_d (fun _ _ => (0 : ℝ)) (Real.sqrt 2) 0 0 1 h2
      (Real.sqrt_nonneg 2) (by norm_num)).2.1⟩

/-- Claim C1: the distance `d` stored in a cell is the oracle value at the
cell's center; with the Distance Oracle modelled from the spec (its
implementation, `arcpy`'s `distanceTo`, is outside this repository), the
stored value is the signed minimum distance from the center to the polygon
boundary — positive inside the polygon and outside all holes, negative
otherwise. -/
theorem cell_d_is_spec_signed_distance (rings : List (List (α × α)))
    (dist : α → α → α) (s x y h : α)
    (hd : IsSignedDistance rings (x, y) (dist x y)) :
    (Cell.make dist s x y h).d = dist x y ∧
    IsSignedDistance rings (x, y) ((Cell.make dist s x y h).d) := ⟨rfl, hd⟩

theorem cell_d_is_spec_signed_distance_witness :
    IsSignedDistance sqRing (2, 2) ((fun _ _ => (2 : ℚ)) 2 2) ∧
    ((Cell.make (fun _ _ => (2 : ℚ)) 0 2 2 5).d = (fun _ _ => (2 : ℚ)) 2 2 ∧
      IsSignedDistance sqRing (2, 2) ((Cell.make (fun _ _ => (2 : ℚ)) 0 2 2 5).d)) := by
  have hd : IsSignedDistance sqRing (2, 2) ((fun _ _ => (2 : ℚ)) 2 2) := by
    refine ⟨?_, ?_, ?_⟩
    · norm_num [minDistSq, edgesOf, sqRing, segDistSq, List.rotate]
    · intro h
      norm_num
    · intro h
      exfalso
      norm_num [insidePoly, inRing, edgesOf, sqRing, crosses, List.rotate,
        List.countP, List.countP.go] at h
  exact ⟨hd, cell_d_is_spec_signed_distance sqRing (fun _ _ => 2) 0 2 2 5 hd⟩

/-- Claim C2: a popped cell is pruned (removed with nothing pushed) exactly
when `cell.max - best.d ≤ tolerance`, where `best` is the loop's best cell at
the moment the check runs in that same iteration — i.e. after the pop's
best-replacement, as in spec step 5; the boundary case `= tolerance` prunes,
and otherwise exactly the four children at offsets `(±h/2, ±h/2)` with
half-size `h/2` are pushed, in the source's order. -/
theorem popped_cell_pruned_iff_within_tolerance (s : α) (dist : α → α → α)
    (tol : α) (ts : ℕ → α) (st : SearchState α) (e : Entry α)
    (rest : List (Entry α)) (best1 : Cell α)
    (hpop : popMin st.queue = some (e, rest))
    (hb : best1 = if st.best.d < e.cell.d then e.cell else st.best) :
    ((step s dist tol ts st).queue = rest ↔ e.cell.max - best1.d ≤ tol) ∧
    (e.cell.max - best1.d = tol →
      step s dist tol ts st = ⟨rest, best1, st.clock⟩) ∧
    (tol < e.cell.max - best1.d →
      step s dist tol ts st =
        ⟨rest ++
          [⟨-(Cell.make dist s (e.cell.x - e.cell.h / 2) (e.cell.y - e.cell.h / 2)
              (e.cell.h / 2)).max, ts st.clock,
            Cell.make dist s (e.cell.x - e.cell.h / 2) (e.cell.y - e.cell.h / 2)
              (e.cell.h / 2)⟩,
           ⟨-(Cell.make dist s (e.cell.x + e.cell.h / 2) (e.cell.y - e.cell.h / 2)
              (e.cell.h / 2)).max, ts (st.clock + 1),
            Cell.make dist s (e.cell.x + e.cell.h / 2) (e.cell.y - e.cell.h / 2)
              (e.cell.h / 2)⟩,
           ⟨-(Cell.make dist s (e.cell.x - e.cell.h / 2) (e.cell.y + e.cell.h / 2)
              (e.cell.h / 2)).max, ts (st.clock + 2),
            Cell.make dist s (e.cell.x - e.cell.h / 2) (e.cell.y + e.cell.h / 2)
              (e.cell.h / 2)⟩,
           ⟨-(Cell.make dist s (e.cell.x + e.cell.h / 2) (e.cell.y + e.cell.h / 2)
              (e.cell.h / 2)).max, ts (st.clock + 3),
            Cell.make dist s (e.cell.x + e.cell.h / 2) (e.cell.y + e.cell.h / 2)
              (e.cell.h / 2)⟩],
          best1, st.clock + 4⟩) := by
  subst hb
  unfold step
  simp only [hpop]
  by_cases hp : e.cell.max - (if st.best.d < e.cell.d then e.cell else st.best).d ≤ tol
  · rw [if_pos hp]
    refine ⟨⟨fun _ => hp, fun _ => rfl⟩, fun _ => rfl, fun hgt => ?_⟩
    exfalso
    linarith
  · rw [if_neg hp]
    refine ⟨⟨fun hEq => ?_, fun hle => absurd hle hp⟩,
      fun hEq => absurd (le_of_eq hEq) hp, fun _ => rfl⟩
    have := congrArg List.length hEq
    simp at this

theorem popped_cell_pruned_iff_within_tolerance_witness :
    popMin [(⟨-1, 0, Cell.make (fun _ _ => (0 : ℚ)) 1 0 0 1⟩ : Entry ℚ)] =
      some (⟨-1, 0, Cell.make (fun _ _ => (0 : ℚ)) 1 0 0 1⟩, []) ∧
    (Cell.make (fun _ _ => (0 : ℚ)) 1 9 9 0 =
      if (Cell.make (fun _ _ => (0 : ℚ)) 1 9 9 0).d <
          (Cell.make (fun _ _ => (0 : ℚ)) 1 0 0 1).d
      then Cell.make (fun _ _ => (0 : ℚ)) 1 0 0 1
      else Cell.make (fun _ _ => (0 : ℚ)) 1 9 9 0) ∧
    ((step 1 (fun _ _ => (0 : ℚ)) 5 (fun _ => 0)
        ⟨[⟨-1, 0, Cell.make (fun _ _ => (0 : ℚ)) 1 0 0 1⟩],
          Cell.make (fun _ _ => (0 : ℚ)) 1 9 9 0, 0⟩).queue = [] ↔
      (Cell.make (fun _ _ => (0 : ℚ)) 1 0 0 1).max -
        (Cell.make (fun _ _ => (0 : ℚ)) 1 9 9 0).d ≤ 5) := by
  have hb : Cell.make (fun _ _ => (0 : ℚ)) 1 9 9 0 =
      if (Cell.make (fun _ _ => (0 : ℚ)) 1 9 9 0).d <
          (Cell.make (fun _ _ => (0 : ℚ)) 1 0 0 1).d
      then Cell.make (fun _ _ => (0 : ℚ)) 1 0 0 1
      else Cell.make (fun _ _ => (0 : ℚ)) 1 9 9 0 := by
    norm_num [Cell.make]
  exact ⟨rfl, hb,
    (popped_cell_pruned_iff_within_tolerance 1 (fun _ _ => 0) 5 (fun _ => 0)
      ⟨[⟨-1, 0, Cell.make (fun _ _ => (0 : ℚ)) 1 0 0 1⟩],
        Cell.make (fun _ _ => (0 : ℚ)) 1 9 9 0, 0⟩
      ⟨-1, 0, Cell.make (fun _ _ => (0 : ℚ)) 1 0 0 1⟩ [] _ rfl hb).1⟩

/-- Claim C7: across one run, `best.d` never decreases — each iteration's best
is at least the previous one's, and the best cell is only ever replaced by
the popped cell, and only when that cell's `d` is strictly greater. -/
theorem best_distance_monotone (s : α) (dist : α → α → α) (tol : α)
    (ts : ℕ → α) :
    (∀ st : SearchState α, st.best.d ≤ (step s dist tol ts st).best.d ∧
      ((step s dist tol ts st).best ≠ st.best →
        ∃ e rest, popMin st.queue = some (e, rest) ∧
          (step s dist tol ts st).best = e.cell ∧ st.best.d < e.cell.d)) ∧
    (∀ (fuel : ℕ) (st st' : SearchState α),
      loopFuel s dist tol ts fuel st = some st' → st.best.d ≤ st'.best.d) := by
  constructor
  · intro st
    refine ⟨step_best_le s dist tol ts st, ?_⟩
    intro hne
    rcases h : popMin st.queue with - | ⟨e, rest⟩
    · exfalso
      apply hne
      have hst : step s dist tol ts st = st := by
        unfold step
        simp only [h]
      rw [hst]
    · have hbe := step_best_eq s dist tol ts h
      by_cases hlt : st.best.d < e.cell.d
      · exact ⟨e, rest, rfl, by rw [hbe, if_pos hlt], hlt⟩
      · exfalso
        exact hne (by rw [hbe, if_neg hlt])
  · intro fuel
    induction fuel with
    | zero =>
      intro st st' h
      cases hq : st.queue with
      | nil =>
        simp only [loopFuel, hq, Option.some.injEq] at h
        rw [← h]
      | cons a l =>
        simp only [loopFuel, hq] at h
        exact Option.noConfusion h
    | succ n ih =>
      intro st st' h
      cases hq : st.queue with
      | nil =>
        simp only [loopFuel, hq, Option.some.injEq] at h
        rw [← h]
      | cons a l =>
        simp only [loopFuel, hq] at h
        exact le_trans (step_best_le s dist tol ts st) (ih _ _ h)

theorem best_distance_monotone_witness :
    loopFuel (1 : ℚ) (fun _ _ => 0) 1 (fun _ => 0) 0
        ⟨[], Cell.make (fun _ _ => (0 : ℚ)) 1 0 0 0, 0⟩ =
      some ⟨[], Cell.make (fun _ _ => (0 : ℚ)) 1 0 0 0, 0⟩ ∧
    (⟨[], Cell.make (fun _ _ => (0 : ℚ)) 1 0 0 0, 0⟩ : SearchState ℚ).best.d ≤
      (⟨[], Cell.make (fun _ _ => (0 : ℚ)) 1 0 0 0, 0⟩ : SearchState ℚ).best.d :=
  ⟨rfl, (best_distance_monotone (1 : ℚ) (fun _ _ => 0) 1 (fun _ => 0)).2 0 _ _ rfl⟩

theorem bnd_pos (k : ℕ) : 0 < bnd k := by
  cases k with
  | zero => simp [bnd]
  | succ n => simp [bnd]

/-- A `Forall₂` relation can be transported along a permutation of the left
list, permuting the right list accordingly. -/
theorem forall₂_of_perm {β : Type} {R : β → ℕ → Prop} {l l' : List β}
    {ks : List ℕ} (hp : l.Perm l') (h : List.Forall₂ R l ks) :
    ∃ ks', ks.Perm ks' ∧ List.Forall₂ R l' ks' := by
  induction hp generalizing ks with
  | nil =>
    cases h
    exact ⟨[], List.Perm.refl _, List.Forall₂.nil⟩
  | cons x hp ih =>
    cases h with
    | cons hx htail =>
      obtain ⟨ks₁, hperm, h'⟩ := ih htail
      exact ⟨_ :: ks₁, hperm.cons _, h'.cons hx⟩
  | swap x y l =>
    cases h with
    | cons hy htail =>
      cases htail with
      | cons hx htail₂ =>
        exact ⟨_ :: _ :: _, List.Perm.swap _ _ _,
          (htail₂.cons hy).cons hx⟩
  | trans p₁ p₂ ih₁ ih₂ =>
    obtain ⟨ks₁, hp₁, h₁⟩ := ih₁ h
    obtain ⟨ks₂, hp₂, h₂⟩ := ih₂ h₁
    exact ⟨ks₂, hp₁.trans hp₂, h₂⟩

/-- If the seeding loop's bound is reached within `n` increments, fuel `n`
suffices for `seedVals` to finish. -/
theorem seedVals_of_reach {limit stp : α} :
    ∀ (n : ℕ) (v : α), limit ≤ v + n * stp →
      ∃ xs, seedVals n v limit stp = some xs := by
  intro n
  induction n with
  | zero =>
    intro v hv
    refine ⟨[], ?_⟩
    have : ¬v < limit := by
      push_cast at hv
      simp only [not_lt]
      linarith
    simp [seedVals, this]
  | succ m ih =>
    intro v hv
    by_cases hvl : v < limit
    · have hv' : limit ≤ (v + stp) + m * stp := by
        push_cast at hv ⊢
        linarith
      obtain ⟨xs, hxs⟩ := ih (v + stp) hv'
      exact ⟨v :: xs, by simp [seedVals, hvl, hxs]⟩
    · exact ⟨[], by simp [seedVals, hvl]⟩

/-- For a positive stride, some fuel makes the seeding loop finish. -/
theorem seedVals_some [Archimedean α] (v limit : α) {stp : α} (hstp : 0 < stp) :
    ∃ n xs, seedVals n v limit stp = some xs := by
  obtain ⟨n, hn⟩ := Archimedean.arch (limit - v) hstp
  refine ⟨n, seedVals_of_reach n v ?_⟩
  rw [nsmul_eq_mul] at hn
  linarith

/-- A successful seeding run is preserved by adding fuel. -/
theorem seedVals_mono {n m : ℕ} (hnm : n ≤ m) :
    ∀ {v limit stp : α} {xs : List α}, seedVals n v limit stp = some xs →
      seedVals m v limit stp = some xs := by
  induction n generalizing m with
  | zero =>
    intro v limit stp xs h
    simp only [seedVals] at h
    by_cases hvl : v < limit
    · simp [hvl] at h
    · simp [hvl] at h
      cases m with
      | zero => simp [seedVals, hvl, h]
      | succ m' => simp [seedVals, hvl, h]
  | succ n' ih =>
    intro v limit stp xs h
    cases m with
    | zero => exact absurd hnm (by omega)
    | succ m' =>
      simp only [seedVals] at h ⊢
      by_cases hvl : v < limit
      · simp only [hvl, if_true] at h ⊢
        rcases hs : seedVals n' (v + stp) limit stp with - | l
        · rw [hs] at h
          simp at h
        · rw [hs] at h
          rw [ih (by omega) hs]
          exact h
      · simp only [hvl, if_false] at h ⊢
        exact h

/-- A successful loop run is preserved by adding fuel. -/
theorem loopFuel_mono (s : α) (dist : α → α → α) (tol : α) (ts : ℕ → α) :
    ∀ {n m : ℕ}, n ≤ m → ∀ {st st' : SearchState α},
      loopFuel s dist tol ts n st = some st' →
      loopFuel s dist tol ts m st = some st' := by
  intro n
  induction n with
  | zero =>
    intro m hnm st st' h
    cases hq : st.queue with
    | nil =>
      simp only [loopFuel, hq, Option.some.injEq] at h
      subst h
      cases m with
      | zero => simp [loopFuel, hq]
      | succ m' => simp [loopFuel, hq]
    | cons a l =>
      simp only [loopFuel, hq] at h
      exact Option.noConfusion h
  | succ n' ih =>
    intro m hnm st st' h
    cases m with
    | zero => exact absurd hnm (by omega)
    | succ m' =>
      cases hq : st.queue with
      | nil =>
        simp only [loopFuel, hq, Option.some.injEq] at h
        subst h
        simp [loopFuel, hq]
      | cons a l =>
        simp only [loopFuel, hq] at h ⊢
        exact ih (by omega) h

/-- Core termination argument: pair each queue entry with a subdivision-level
budget `k` such that `h * s ≤ 2^k * tol` (and the program invariant
`max ≤ d + h * s`, which `Cell.__init__` establishes with equality); since
the post-update best always dominates the popped cell's `d`, a level-0 cell
is necessarily pruned, and a subdivided cell's children live one level
lower, so `Σ bnd k` bounds the remaining loop iterations. -/
theorem loopFuel_terminates_aux (s : α) (dist : α → α → α) (tol : α)
    (ts : ℕ → α) :
    ∀ (fuel : ℕ) (st : SearchState α) (ks : List ℕ),
      List.Forall₂ (fun e k => e.cell.max ≤ e.cell.d + e.cell.h * s ∧
        e.cell.h * s ≤ 2 ^ k * tol) st.queue ks →
      (ks.map bnd).sum ≤ fuel →
      ∃ st', loopFuel s dist tol ts fuel st = some st' ∧ st'.queue = [] := by
  intro fuel
  induction fuel with
  | zero =>
    intro st ks hf hsum
    cases ks with
    | nil =>
      have hq : st.queue = [] := List.forall₂_nil_right_iff.mp hf
      exact ⟨st, by simp [loopFuel, hq], hq⟩
    | cons k ks' =>
      exfalso
      have := bnd_pos k
      simp only [List.map_cons, List.sum_cons] at hsum
      omega
  | succ n ih =>
    intro st ks hf hsum
    cases hq : st.queue with
    | nil => exact ⟨st, by simp [loopFuel, hq], hq⟩
    | cons a l =>
      obtain ⟨e, rest, hpop⟩ : ∃ e rest, popMin st.queue = some (e, rest) := by
        cases hp : popMin st.queue with
        | none =>
          rw [popMin_eq_none_iff, hq] at hp
          exact absurd hp (by simp)
        | some pr => exact ⟨pr.1, pr.2, rfl⟩
      have hperm : st.queue.Perm (e :: rest) := (popMin_perm hpop).symm
      obtain ⟨ks', hksperm, hf'⟩ := forall₂_of_perm hperm hf
      rw [List.forall₂_cons_left_iff] at hf'
      obtain ⟨ke, krest, hek, hkrest, rfl⟩ := hf'
      have hsumeq : (ks.map bnd).sum = bnd ke + (krest.map bnd).sum := by
        have := (hksperm.map bnd).sum_eq
        simpa using this
      have hsum' : bnd ke + (krest.map bnd).sum ≤ n + 1 := by omega
      have hlf : loopFuel s dist tol ts (n + 1) st =
          loopFuel s dist tol ts n (step s dist tol ts st) := by
        simp [loopFuel, hq]
      by_cases hprune :
        e.cell.max - (if st.best.d < e.cell.d then e.cell else st.best).d ≤ tol
      · have hstq : step s dist tol ts st =
            ⟨rest, if st.best.d < e.cell.d then e.cell else st.best,
              st.clock⟩ := by
          unfold step
          simp only [hpop]
          rw [if_pos hprune]
        obtain ⟨st', hrun, hempty⟩ := ih (step s dist tol ts st) krest
          (by rw [hstq]; exact hkrest) (by have := bnd_pos ke; omega)
        exact ⟨st', by rw [hlf, hrun], hempty⟩
      · cases ke with
        | zero =>
          exfalso
          apply hprune
          have h1 : e.cell.max ≤ e.cell.d + e.cell.h * s := hek.1
          have h2 : e.cell.h * s ≤ 2 ^ 0 * tol := hek.2
          have h3 : e.cell.d ≤
              (if st.best.d < e.cell.d then e.cell else st.best).d :=
            best1_ge_cell
          simp only [pow_zero, one_mul] at h2
          linarith
        | succ k' =>
          have hchild : (e.cell.h / 2) * s ≤ 2 ^ k' * tol := by
            have h2 : e.cell.h * s ≤ 2 ^ (k' + 1) * tol := hek.2
            have h4 : e.cell.h * s / 2 ≤ 2 ^ (k' + 1) * tol / 2 := by linarith
            calc (e.cell.h / 2) * s = e.cell.h * s / 2 := by ring
              _ ≤ 2 ^ (k' + 1) * tol / 2 := h4
              _ = 2 ^ k' * tol := by rw [pow_succ]; ring
          have hstq : (step s dist tol ts st).queue = rest ++
              [⟨-(Cell.make dist s (e.cell.x - e.cell.h / 2)
                  (e.cell.y - e.cell.h / 2) (e.cell.h / 2)).max, ts st.clock,
                Cell.make dist s (e.cell.x - e.cell.h / 2)
                  (e.cell.y - e.cell.h / 2) (e.cell.h / 2)⟩,
               ⟨-(Cell.make dist s (e.cell.x + e.cell.h / 2)
                  (e.cell.y - e.cell.h / 2) (e.cell.h / 2)).max,
                ts (st.clock + 1),
                Cell.make dist s (e.cell.x + e.cell.h / 2)
                  (e.cell.y - e.cell.h / 2) (e.cell.h / 2)⟩,
               ⟨-(Cell.make dist s (e.cell.x - e.cell.h / 2)
                  (e.cell.y + e.cell.h / 2) (e.cell.h / 2)).max,
                ts (st.clock + 2),
                Cell.make dist s (e.cell.x - e.cell.h / 2)
                  (e.cell.y + e.cell.h / 2) (e.cell.h / 2)⟩,
               ⟨-(Cell.make dist s (e.cell.x + e.cell.h / 2)
                  (e.cell.y + e.cell.h / 2) (e.cell.h / 2)).max,
                ts (st.clock + 3),
                Cell.make dist s (e.cell.x + e.cell.h / 2)
                  (e.cell.y + e.cell.h / 2) (e.cell.h / 2)⟩] := by
            unfold step
            simp only [hpop]
            rw [if_neg hprune]
          have hf2 : List.Forall₂ (fun e k =>
              e.cell.max ≤ e.cell.d + e.cell.h * s ∧
                e.cell.h * s ≤ 2 ^ k * tol)
              (step s dist tol ts st).queue (krest ++ [k', k', k', k']) := by
            rw [hstq]
            refine List.rel_append hkrest ?_
            refine List.Forall₂.cons ⟨le_of_eq rfl, hchild⟩ ?_
            refine List.Forall₂.cons ⟨le_of_eq rfl, hchild⟩ ?_
            refine List.Forall₂.cons ⟨le_of_eq rfl, hchild⟩ ?_
            exact List.Forall₂.cons ⟨le_of_eq rfl, hchild⟩ List.Forall₂.nil
          have hsum2 : (((krest ++ [k', k', k', k']).map bnd)).sum ≤ n := by
            simp only [List.map_append, List.sum_append, List.map_cons,
              List.sum_cons, List.map_nil, List.sum_nil, bnd] at hsum' ⊢
            omega
          obtain ⟨st', hrun, hempty⟩ := ih (step s dist tol ts st)
            (krest ++ [k', k', k', k']) hf2 hsum2
          exact ⟨st', by rw [hlf, hrun], hempty⟩

/-- Every finite queue admits level budgets, because `2^k * tol` grows beyond
any bound when `tol > 0` (Archimedean property). -/
theorem exists_levels [Archimedean α] (s tol : α) (htol : 0 < tol) :
    ∀ l : List (Entry α), (∀ e ∈ l, e.cell.max ≤ e.cell.d + e.cell.h * s) →
      ∃ ks, List.Forall₂ (fun e k => e.cell.max ≤ e.cell.d + e.cell.h * s ∧
        e.cell.h * s ≤ 2 ^ k * tol) l ks := by
  intro l
  induction l with
  | nil => exact fun _ => ⟨[], List.Forall₂.nil⟩
  | cons e l ih =>
    intro hinv
    obtain ⟨ks, hks⟩ := ih fun f hf => hinv f (List.mem_cons_of_mem _ hf)
    obtain ⟨n, hn⟩ := Archimedean.arch (e.cell.h * s) htol
    refine ⟨n :: ks,
      List.Forall₂.cons ⟨hinv e (List.mem_cons_self _ _), ?_⟩ hks⟩
    rw [nsmul_eq_mul] at hn
    have hcast : (n : α) ≤ 2 ^ n := by
      have h1 : (n : ℕ) ≤ 2 ^ n := (Nat.lt_two_pow n).le
      calc (n : α) ≤ ((2 ^ n : ℕ) : α) := by exact_mod_cast h1
        _ = 2 ^ n := by push_cast; ring
    calc e.cell.h * s ≤ n * tol := hn
      _ ≤ 2 ^ n * tol := mul_le_mul_of_nonneg_right hcast htol.le

/-- Claim C8: for tolerance `> 0` the search loop always terminates with the
Frontier empty — given any queue satisfying the constructor invariant
`max ≤ d + h * s` (which `Cell.__init__` establishes with equality), some
finite fuel runs `loopFuel` to completion with an empty queue; consequently,
for a non-degenerate bounding box, `executeCore` produces a result for some
finite fuel.  The key facts are that each subdivision halves `h` while the
post-update best dominates the popped `d`, so every cell is pruned once
`h * s ≤ tol`. -/
theorem search_terminates_with_empty_frontier [Archimedean α] (s : α)
    (dist : α → α → α) (tol : α) (ts : ℕ → α) :
    (0 < tol → ∀ st : SearchState α,
      (∀ e ∈ st.queue, e.cell.max ≤ e.cell.d + e.cell.h * s) →
      ∃ fuel st', loopFuel s dist tol ts fuel st = some st' ∧
        st'.queue = []) ∧
    (0 < tol → ∀ pg : Polygon α, pg.xmin < pg.xmax → pg.ymin < pg.ymax →
      ∃ fuel pt, executeCore s pg tol ts fuel = some pt) := by
  constructor
  · intro htol st hinv
    obtain ⟨ks, hks⟩ := exists_levels s tol htol st.queue hinv
    exact ⟨(ks.map bnd).sum,
      loopFuel_terminates_aux s dist tol ts _ st ks hks le_rfl⟩
  · intro htol pg hx hy
    by_cases hdeg : min (pg.xmax - pg.xmin) (pg.ymax - pg.ymin) = 0 ∨
        pg.area < max (pg.xmax - pg.xmin) (pg.ymax - pg.ymin) * tol
    · refine ⟨0, (pg.cx, pg.cy), ?_⟩
      simp only [executeCore]
      rw [if_pos hdeg]
    · have hcs : 0 < min (pg.xmax - pg.xmin) (pg.ymax - pg.ymin) :=
        lt_min (by linarith) (by linarith)
      obtain ⟨n1, xs, hxs⟩ := seedVals_some pg.xmin pg.xmax hcs
      obtain ⟨n2, ys, hys⟩ := seedVals_some pg.ymin pg.ymax hcs
      have hcells : ∀ c ∈ (xs.flatMap fun x =>
          List.map (fun y => Cell.make pg.dist s
            (x + min (pg.xmax - pg.xmin) (pg.ymax - pg.ymin) / 2)
            (y + min (pg.xmax - pg.xmin) (pg.ymax - pg.ymin) / 2)
            (min (pg.xmax - pg.xmin) (pg.ymax - pg.ymin) / 2)) ys),
          c.max = c.d + c.h * s := by
        intro c hc
        simp only [List.mem_flatMap, List.mem_map] at hc
        obtain ⟨x, hxmem, y, hymem, rfl⟩ := hc
        rfl
      have hinvST : ∀ e ∈ List.map
          (fun ic =>
            ({ k1 := -ic.2.max, k2 := ts ic.1, cell := ic.2 } : Entry α))
          (xs.flatMap fun x =>
            List.map (fun y => Cell.make pg.dist s
              (x + min (pg.xmax - pg.xmin) (pg.ymax - pg.ymin) / 2)
              (y + min (pg.xmax - pg.xmin) (pg.ymax - pg.ymin) / 2)
              (min (pg.xmax - pg.xmin) (pg.ymax - pg.ymin) / 2)) ys).enum,
          e.cell.max ≤ e.cell.d + e.cell.h * s := by
        intro e he
        simp only [List.mem_map] at he
        obtain ⟨ic, hmem, rfl⟩ := he
        have hic : ic.2 ∈ (xs.flatMap fun x =>
            List.map (fun y => Cell.make pg.dist s
              (x + min (pg.xmax - pg.xmin) (pg.ymax - pg.ymin) / 2)
              (y + min (pg.xmax - pg.xmin) (pg.ymax - pg.ymin) / 2)
              (min (pg.xmax - pg.xmin) (pg.ymax - pg.ymin) / 2)) ys) := by
          have h1 := List.mem_enum_iff_getElem?.mp hmem
          exact List.getElem?_mem h1
        exact le_of_eq (hcells ic.2 hic)
      obtain ⟨ks, hks⟩ := exists_levels s tol htol _ hinvST
      obtain ⟨stf, hrun, hemp⟩ := loopFuel_terminates_aux s pg.dist tol ts
        ((ks.map bnd).sum)
        ⟨List.map
          (fun ic =>
            ({ k1 := -ic.2.max, k2 := ts ic.1, cell := ic.2 } : Entry α))
          (xs.flatMap fun x =>
            List.map (fun y => Cell.make pg.dist s
              (x + min (pg.xmax - pg.xmin) (pg.ymax - pg.ymin) / 2)
              (y + min (pg.xmax - pg.xmin) (pg.ymax - pg.ymin) / 2)
              (min (pg.xmax - pg.xmin) (pg.ymax - pg.ymin) / 2)) ys).enum,
         (if (Cell.make pg.dist s pg.cx pg.cy 0).d <
              (Cell.make pg.dist s (pg.xmin + (pg.xmax - pg.xmin) / 2)
                (pg.ymin + (pg.ymax - pg.ymin) / 2) 0).d then
            Cell.make pg.dist s (pg.xmin + (pg.xmax - pg.xmin) / 2)
              (pg.ymin + (pg.ymax - pg.ymin) / 2) 0
          else Cell.make pg.dist s pg.cx pg.cy 0),
         (xs.flatMap fun x =>
            List.map (fun y => Cell.make pg.dist s
              (x + min (pg.xmax - pg.xmin) (pg.ymax - pg.ymin) / 2)
              (y + min (pg.xmax - pg.xmin) (pg.ymax - pg.ymin) / 2)
              (min (pg.xmax - pg.xmin) (pg.ymax - pg.ymin) / 2)) ys).length⟩
        ks hks le_rfl
      refine ⟨n1 + n2 + (ks.map bnd).sum, (stf.best.x, stf.best.y), ?_⟩
      simp only [executeCore]
      rw [if_neg hdeg]
      rw [seedVals_mono (by omega) hxs, seedVals_mono (by omega) hys]
      dsimp only
      rw [loopFuel_mono s pg.dist tol ts (by omega) hrun]

theorem search_terminates_with_empty_frontier_witness :
    (0 : ℝ) < 1 ∧
    (∃ fuel st', loopFuel (Real.sqrt 2) (fun _ _ => (0 : ℝ)) 1
        (fun n => (n : ℝ)) fuel
        ⟨[], Cell.make (fun _ _ => (0 : ℝ)) (Real.sqrt 2) 0 0 0, 0⟩ =
        some st' ∧ st'.queue = []) ∧
    (∃ fuel pt, executeCore (Real.sqrt 2)
        { xmin := 0, xmax := 2, ymin := 0, ymax := 2, area := 4, cx := 1,
          cy := 1, dist := fun _ _ => (0 : ℝ) } 1 (fun n => (n : ℝ)) fuel =
        some pt) := by
  have h := search_terminates_with_empty_frontier (Real.sqrt 2)
    (fun _ _ => (0 : ℝ)) 1 (fun n => (n : ℝ))
  exact ⟨by norm_num, h.1 (by norm_num) _ (by simp),
    h.2 (by norm_num) _ (by norm_num) (by norm_num)⟩
/-- A popped entry within tolerance of the (post-update) best is pruned:
the iteration removes it and pushes nothing. -/
theorem step_eq_of_prune (s : α) (dist : α → α → α) (tol : α) (ts : ℕ → α)
    {st : SearchState α} {e : Entry α} {rest : List (Entry α)}
    (h : popMin st.queue = some (e, rest))
    (hp : e.cell.max - (if st.best.d < e.cell.d then e.cell else st.best).d ≤ tol) :
    step s dist tol ts st =
      ⟨rest, if st.best.d < e.cell.d then e.cell else st.best, st.clock⟩ := by
  unfold step
  simp only [h]
  rw [if_pos hp]

/-- With clock readings that increase between the two seed insertions, the
run returns the first seeded tied cell, centered at `(2, 2)`. -/
theorem run_with_increasing_clock :
    executeCore (Real.sqrt 2)
      { xmin := 0, xmax := 8, ymin := 0, ymax := 4, area := 100, cx := 0,
        cy := 0, dist := fun x y => (x - 4) ^ 2 * y / 8 } 10
      (fun n => (n : ℝ)) 3 = some (2, 2) := by
  have hsq2 : Real.sqrt 2 ≤ 2 := by
    nlinarith [Real.sq_sqrt (show (0:ℝ) ≤ 2 by norm_num), Real.sqrt_nonneg 2]
  have hnd : ¬(min ((8:ℝ) - 0) ((4:ℝ) - 0) = 0 ∨
      (100:ℝ) < max ((8:ℝ) - 0) ((4:ℝ) - 0) * 10) := by
    norm_num [min_def, max_def]
  have hseedx : seedVals 3 (0:ℝ) 8 (min ((8:ℝ) - 0) ((4:ℝ) - 0)) =
      some [0, 4] := by
    norm_num [seedVals, min_def]
  have hseedy : seedVals 3 (0:ℝ) 4 (min ((8:ℝ) - 0) ((4:ℝ) - 0)) =
      some [0] := by
    norm_num [seedVals, min_def]
  have hkey : keyLe
      (⟨-(2 * Real.sqrt 2) + -1, 0,
        ⟨2, 2, 2, 1, 1 + 2 * Real.sqrt 2⟩⟩ : Entry ℝ)
      (⟨-(2 * Real.sqrt 2) + -1, 1,
        ⟨6, 2, 2, 1, 1 + 2 * Real.sqrt 2⟩⟩ : Entry ℝ) :=
    Or.inr ⟨rfl, by norm_num⟩
  have hpop0 : popMin
      [(⟨-(2 * Real.sqrt 2) + -1, 0,
         ⟨2, 2, 2, 1, 1 + 2 * Real.sqrt 2⟩⟩ : Entry ℝ),
       ⟨-(2 * Real.sqrt 2) + -1, 1, ⟨6, 2, 2, 1, 1 + 2 * Real.sqrt 2⟩⟩] =
      some (⟨-(2 * Real.sqrt 2) + -1, 0, ⟨2, 2, 2, 1, 1 + 2 * Real.sqrt 2⟩⟩,
        [⟨-(2 * Real.sqrt 2) + -1, 1, ⟨6, 2, 2, 1, 1 + 2 * Real.sqrt 2⟩⟩]) := by
    simp only [popMin]
    rw [if_pos hkey]
  have hstep0 : step (Real.sqrt 2) (fun x y => (x - 4) ^ 2 * y / 8) 10
      (fun n => (n : ℝ))
      ⟨[⟨-(2 * Real.sqrt 2) + -1, 0, ⟨2, 2, 2, 1, 1 + 2 * Real.sqrt 2⟩⟩,
        ⟨-(2 * Real.sqrt 2) + -1, 1, ⟨6, 2, 2, 1, 1 + 2 * Real.sqrt 2⟩⟩],
       ⟨0, 0, 0, 0, 0⟩, 2⟩ =
      ⟨[⟨-(2 * Real.sqrt 2) + -1, 1, ⟨6, 2, 2, 1, 1 + 2 * Real.sqrt 2⟩⟩],
       ⟨2, 2, 2, 1, 1 + 2 * Real.sqrt 2⟩, 2⟩ := by
    rw [step_eq_of_prune (Real.sqrt 2) (fun x y => (x - 4) ^ 2 * y / 8) 10
      (fun n => (n : ℝ)) hpop0 (by rw [if_pos (by norm_num)]; dsimp only; linarith)]
    rw [if_pos (by norm_num)]
  have hpop1 : popMin
      [(⟨-(2 * Real.sqrt 2) + -1, 1,
         ⟨6, 2, 2, 1, 1 + 2 * Real.sqrt 2⟩⟩ : Entry ℝ)] =
      some (⟨-(2 * Real.sqrt 2) + -1, 1, ⟨6, 2, 2, 1, 1 + 2 * Real.sqrt 2⟩⟩,
        []) := rfl
  have hstep1 : step (Real.sqrt 2) (fun x y => (x - 4) ^ 2 * y / 8) 10
      (fun n => (n : ℝ))
      ⟨[⟨-(2 * Real.sqrt 2) + -1, 1, ⟨6, 2, 2, 1, 1 + 2 * Real.sqrt 2⟩⟩],
       ⟨2, 2, 2, 1, 1 + 2 * Real.sqrt 2⟩, 2⟩ =
      ⟨[], ⟨2, 2, 2, 1, 1 + 2 * Real.sqrt 2⟩, 2⟩ := by
    rw [step_eq_of_prune (Real.sqrt 2) (fun x y => (x - 4) ^ 2 * y / 8) 10
      (fun n => (n : ℝ)) hpop1 (by rw [if_neg (by norm_num)]; dsimp only; linarith)]
    rw [if_neg (by norm_num)]
  have hl : loopFuel (Real.sqrt 2) (fun x y => (x - 4) ^ 2 * y / 8) 10
      (fun n => (n : ℝ)) 3
      ⟨[⟨-(2 * Real.sqrt 2) + -1, 0, ⟨2, 2, 2, 1, 1 + 2 * Real.sqrt 2⟩⟩,
        ⟨-(2 * Real.sqrt 2) + -1, 1, ⟨6, 2, 2, 1, 1 + 2 * Real.sqrt 2⟩⟩],
       ⟨0, 0, 0, 0, 0⟩, 2⟩ =
      some ⟨[], ⟨2, 2, 2, 1, 1 + 2 * Real.sqrt 2⟩, 2⟩ := by
    have e3 : loopFuel (Real.sqrt 2) (fun x y => (x - 4) ^ 2 * y / 8) 10
        (fun n => (n : ℝ)) 3
        ⟨[⟨-(2 * Real.sqrt 2) + -1, 0, ⟨2, 2, 2, 1, 1 + 2 * Real.sqrt 2⟩⟩,
          ⟨-(2 * Real.sqrt 2) + -1, 1, ⟨6, 2, 2, 1, 1 + 2 * Real.sqrt 2⟩⟩],
         ⟨0, 0, 0, 0, 0⟩, 2⟩ =
        loopFuel (Real.sqrt 2) (fun x y => (x - 4) ^ 2 * y / 8) 10
          (fun n => (n : ℝ)) 2
          (step (Real.sqrt 2) (fun x y => (x - 4) ^ 2 * y / 8) 10
            (fun n => (n : ℝ))
            ⟨[⟨-(2 * Real.sqrt 2) + -1, 0, ⟨2, 2, 2, 1, 1 + 2 * Real.sqrt 2⟩⟩,
              ⟨-(2 * Real.sqrt 2) + -1, 1, ⟨6, 2, 2, 1, 1 + 2 * Real.sqrt 2⟩⟩],
             ⟨0, 0, 0, 0, 0⟩, 2⟩) := rfl
    rw [e3, hstep0]
    have e2 : loopFuel (Real.sqrt 2) (fun x y => (x - 4) ^ 2 * y / 8) 10
        (fun n => (n : ℝ)) 2
        ⟨[⟨-(2 * Real.sqrt 2) + -1, 1, ⟨6, 2, 2, 1, 1 + 2 * Real.sqrt 2⟩⟩],
         ⟨2, 2, 2, 1, 1 + 2 * Real.sqrt 2⟩, 2⟩ =
        loopFuel (Real.sqrt 2) (fun x y => (x - 4) ^ 2 * y / 8) 10
          (fun n => (n : ℝ)) 1
          (step (Real.sqrt 2) (fun x y => (x - 4) ^ 2 * y / 8) 10
            (fun n => (n : ℝ))
            ⟨[⟨-(2 * Real.sqrt 2) + -1, 1, ⟨6, 2, 2, 1, 1 + 2 * Real.sqrt 2⟩⟩],
             ⟨2, 2, 2, 1, 1 + 2 * Real.sqrt 2⟩, 2⟩) := rfl
    rw [e2, hstep1]
    rfl
  simp only [executeCore]
  rw [if_neg hnd, hseedx, hseedy]
  dsimp only [List.flatMap, List.map, List.enum, List.enumFrom, List.length,
    List.append]
  norm_num [min_def, Cell.make]
  rw [hl]

/-- With clock readings that step backwards between the two seed insertions
(wall clocks are not monotone: `time.time()` can move backwards under clock
adjustment), the same input returns the other tied cell, centered at
`(6, 2)`. -/
theorem run_with_decreasing_clock :
    executeCore (Real.sqrt 2)
      { xmin := 0, xmax := 8, ymin := 0, ymax := 4, area := 100, cx := 0,
        cy := 0, dist := fun x y => (x - 4) ^ 2 * y / 8 } 10
      (fun n => -(n : ℝ)) 3 = some (6, 2) := by
  have hsq2 : Real.sqrt 2 ≤ 2 := by
    nlinarith [Real.sq_sqrt (show (0:ℝ) ≤ 2 by norm_num), Real.sqrt_nonneg 2]
  have hnd : ¬(min ((8:ℝ) - 0) ((4:ℝ) - 0) = 0 ∨
      (100:ℝ) < max ((8:ℝ) - 0) ((4:ℝ) - 0) * 10) := by
    norm_num [min_def, max_def]
  have hseedx : seedVals 3 (0:ℝ) 8 (min ((8:ℝ) - 0) ((4:ℝ) - 0)) =
      some [0, 4] := by
    norm_num [seedVals, min_def]
  have hseedy : seedVals 3 (0:ℝ) 4 (min ((8:ℝ) - 0) ((4:ℝ) - 0)) =
      some [0] := by
    norm_num [seedVals, min_def]
  have hnkey : ¬ keyLe
      (⟨-(2 * Real.sqrt 2) + -1, 0,
        ⟨2, 2, 2, 1, 1 + 2 * Real.sqrt 2⟩⟩ : Entry ℝ)
      (⟨-(2 * Real.sqrt 2) + -1, -1,
        ⟨6, 2, 2, 1, 1 + 2 * Real.sqrt 2⟩⟩ : Entry ℝ) := by
    norm_num [keyLe]
  have hpop0 : popMin
      [(⟨-(2 * Real.sqrt 2) + -1, 0,
         ⟨2, 2, 2, 1, 1 + 2 * Real.sqrt 2⟩⟩ : Entry ℝ),
       ⟨-(2 * Real.sqrt 2) + -1, -1, ⟨6, 2, 2, 1, 1 + 2 * Real.sqrt 2⟩⟩] =
      some (⟨-(2 * Real.sqrt 2) + -1, -1, ⟨6, 2, 2, 1, 1 + 2 * Real.sqrt 2⟩⟩,
        [⟨-(2 * Real.sqrt 2) + -1, 0, ⟨2, 2, 2, 1, 1 + 2 * Real.sqrt 2⟩⟩]) := by
    simp only [popMin]
    rw [if_neg hnkey]
  have hstep0 : step (Real.sqrt 2) (fun x y => (x - 4) ^ 2 * y / 8) 10
      (fun n => -(n : ℝ))
      ⟨[⟨-(2 * Real.sqrt 2) + -1, 0, ⟨2, 2, 2, 1, 1 + 2 * Real.sqrt 2⟩⟩,
        ⟨-(2 * Real.sqrt 2) + -1, -1, ⟨6, 2, 2, 1, 1 + 2 * Real.sqrt 2⟩⟩],
       ⟨0, 0, 0, 0, 0⟩, 2⟩ =
      ⟨[⟨-(2 * Real.sqrt 2) + -1, 0, ⟨2, 2, 2, 1, 1 + 2 * Real.sqrt 2⟩⟩],
       ⟨6, 2, 2, 1, 1 + 2 * Real.sqrt 2⟩, 2⟩ := by
    rw [step_eq_of_prune (Real.sqrt 2) (fun x y => (x - 4) ^ 2 * y / 8) 10
      (fun n => -(n : ℝ)) hpop0
      (by rw [if_pos (by norm_num)]; dsimp only; linarith)]
    rw [if_pos (by norm_num)]
  have hpop1 : popMin
      [(⟨-(2 * Real.sqrt 2) + -1, 0,
         ⟨2, 2, 2, 1, 1 + 2 * Real.sqrt 2⟩⟩ : Entry ℝ)] =
      some (⟨-(2 * Real.sqrt 2) + -1, 0, ⟨2, 2, 2, 1, 1 + 2 * Real.sqrt 2⟩⟩,
        []) := rfl
  have hstep1 : step (Real.sqrt 2) (fun x y => (x - 4) ^ 2 * y / 8) 10
      (fun n => -(n : ℝ))
      ⟨[⟨-(2 * Real.sqrt 2) + -1, 0, ⟨2, 2, 2, 1, 1 + 2 * Real.sqrt 2⟩⟩],
       ⟨6, 2, 2, 1, 1 + 2 * Real.sqrt 2⟩, 2⟩ =
      ⟨[], ⟨6, 2, 2, 1, 1 + 2 * Real.sqrt 2⟩, 2⟩ := by
    rw [step_eq_of_prune (Real.sqrt 2) (fun x y => (x - 4) ^ 2 * y / 8) 10
      (fun n => -(n : ℝ)) hpop1
      (by rw [if_neg (by norm_num)]; dsimp only; linarith)]
    rw [if_neg (by norm_num)]
  have hl : loopFuel (Real.sqrt 2) (fun x y => (x - 4) ^ 2 * y / 8) 10
      (fun n => -(n : ℝ)) 3
      ⟨[⟨-(2 * Real.sqrt 2) + -1, 0, ⟨2, 2, 2, 1, 1 + 2 * Real.sqrt 2⟩⟩,
        ⟨-(2 * Real.sqrt 2) + -1, -1, ⟨6, 2, 2, 1, 1 + 2 * Real.sqrt 2⟩⟩],
       ⟨0, 0, 0, 0, 0⟩, 2⟩ =
      some ⟨[], ⟨6, 2, 2, 1, 1 + 2 * Real.sqrt 2⟩, 2⟩ := by
    have e3 : loopFuel (Real.sqrt 2) (fun x y => (x - 4) ^ 2 * y / 8) 10
        (fun n => -(n : ℝ)) 3
        ⟨[⟨-(2 * Real.sqrt 2) + -1, 0, ⟨2, 2, 2, 1, 1 + 2 * Real.sqrt 2⟩⟩,
          ⟨-(2 * Real.sqrt 2) + -1, -1, ⟨6, 2, 2, 1, 1 + 2 * Real.sqrt 2⟩⟩],
         ⟨0, 0, 0, 0, 0⟩, 2⟩ =
        loopFuel (Real.sqrt 2) (fun x y => (x - 4) ^ 2 * y / 8) 10
          (fun n => -(n : ℝ)) 2
          (step (Real.sqrt 2) (fun x y => (x - 4) ^ 2 * y / 8) 10
            (fun n => -(n : ℝ))
            ⟨[⟨-(2 * Real.sqrt 2) + -1, 0, ⟨2, 2, 2, 1, 1 + 2 * Real.sqrt 2⟩⟩,
              ⟨-(2 * Real.sqrt 2) + -1, -1,
                ⟨6, 2, 2, 1, 1 + 2 * Real.sqrt 2⟩⟩],
             ⟨0, 0, 0, 0, 0⟩, 2⟩) := rfl
    rw [e3, hstep0]
    have e2 : loopFuel (Real.sqrt 2) (fun x y => (x - 4) ^ 2 * y / 8) 10
        (fun n => -(n : ℝ)) 2
        ⟨[⟨-(2 * Real.sqrt 2) + -1, 0, ⟨2, 2, 2, 1, 1 + 2 * Real.sqrt 2⟩⟩],
         ⟨6, 2, 2, 1, 1 + 2 * Real.sqrt 2⟩, 2⟩ =
        loopFuel (Real.sqrt 2) (fun x y => (x - 4) ^ 2 * y / 8) 10
          (fun n => -(n : ℝ)) 1
          (step (Real.sqrt 2) (fun x y => (x - 4) ^ 2 * y / 8) 10
            (fun n => -(n : ℝ))
            ⟨[⟨-(2 * Real.sqrt 2) + -1, 0, ⟨2, 2, 2, 1, 1 + 2 * Real.sqrt 2⟩⟩],
             ⟨6, 2, 2, 1, 1 + 2 * Real.sqrt 2⟩, 2⟩) := rfl
    rw [e2, hstep1]
    rfl
  simp only [executeCore]
  rw [if_neg hnd, hseedx, hseedy]
  dsimp only [List.flatMap, List.map, List.enum, List.enumFrom, List.length,
    List.append]
  norm_num [min_def, Cell.make]
  rw [hl]

/-- Claim C3 (counterexample): the tie-break key is the wall-clock reading
taken at insertion, not an insertion sequence counter, and the computation is
not a function of the polygon and tolerance alone — two runs on the same
polygon and tolerance whose clock streams differ return different points,
because the two seeded cells tie exactly in upper bound. -/
theorem clock_tie_break_not_deterministic :
    executeCore (Real.sqrt 2)
      { xmin := 0, xmax := 8, ymin := 0, ymax := 4, area := 100, cx := 0,
        cy := 0, dist := fun x y => (x - 4) ^ 2 * y / 8 } 10
      (fun n => (n : ℝ)) 3 ≠
    executeCore (Real.sqrt 2)
      { xmin := 0, xmax := 8, ymin := 0, ymax := 4, area := 100, cx := 0,
        cy := 0, dist := fun x y => (x - 4) ^ 2 * y / 8 } 10
      (fun n => -(n : ℝ)) 3 := by
  rw [run_with_increasing_clock, run_with_decreasing_clock]
  intro h
  simp only [Option.some.injEq, Prod.mk.injEq] at h
  norm_num at h

/-- Claim C3 (amended): the Frontier pops an entry whose key `(k1, k2)` =
`(-upperBound, clock reading at insertion)` is least — i.e. greatest upper
bound first, with exact upper-bound ties resolved towards the smaller clock
reading recorded at insertion (`time.time()`), not towards an insertion
sequence counter.  For a fixed clock stream the pop order (and hence the
result) is determined, but the clock stream is not a function of the input,
so bit-identical results across runs are not guaranteed. -/
theorem frontier_pop_greatest_upper_bound_clock_tie (l : List (Entry α))
    (e : Entry α) (rest : List (Entry α)) (h : popMin l = some (e, rest)) :
    (∀ f ∈ l, keyLe e f) ∧ (e :: rest).Perm l ∧
    (∀ f ∈ l, f.k1 = e.k1 → e.k2 ≤ f.k2) := by
  refine ⟨popMin_le_all h, popMin_perm h, ?_⟩
  intro f hf hk1
  rcases popMin_le_all h f hf with hlt | ⟨-, hle⟩
  · exact absurd (hk1 ▸ hlt) (lt_irrefl _)
  · exact hle

theorem frontier_pop_greatest_upper_bound_clock_tie_witness :
    popMin [(⟨-2, 7, ⟨0, 0, 0, 0, 0⟩⟩ : Entry ℚ), ⟨-1, 5, ⟨0, 0, 0, 0, 0⟩⟩] =
      some (⟨-2, 7, ⟨0, 0, 0, 0, 0⟩⟩, [⟨-1, 5, ⟨0, 0, 0, 0, 0⟩⟩]) ∧
    keyLe (⟨-2, 7, ⟨0, 0, 0, 0, 0⟩⟩ : Entry ℚ) ⟨-1, 5, ⟨0, 0, 0, 0, 0⟩⟩ := by
  have hpop : popMin
      [(⟨-2, 7, ⟨0, 0, 0, 0, 0⟩⟩ : Entry ℚ), ⟨-1, 5, ⟨0, 0, 0, 0, 0⟩⟩] =
      some (⟨-2, 7, ⟨0, 0, 0, 0, 0⟩⟩, [⟨-1, 5, ⟨0, 0, 0, 0, 0⟩⟩]) := by
    have hk : keyLe (⟨-2, 7, ⟨0, 0, 0, 0, 0⟩⟩ : Entry ℚ)
        ⟨-1, 5, ⟨0, 0, 0, 0, 0⟩⟩ := Or.inl (by norm_num)
    simp only [popMin]
    rw [if_pos hk]
  exact ⟨hpop,
    (frontier_pop_greatest_upper_bound_clock_tie _ _ _ hpop).1
      ⟨-1, 5, ⟨0, 0, 0, 0, 0⟩⟩ (by simp)⟩
